import Mathlib

/-!
Verification development for the VFS shell emulator (`main_final.py`).

The embedding below translates the program's core into Lean:
* Python path-string manipulation (`str.strip("/")`, `str.split("/")`,
  `os.path.dirname`, `os.path.basename`, `os.path.join` in POSIX form,
  followed by the source's `.replace("\\", "/")`) as functions on `List Char`;
* the VFS tree (`dict` nodes with `"type"`, `"content"` and an optional
  `"owner"` key) as a mutual inductive `Node`/`Entries`, where `Entries`
  is an insertion-ordered association list mirroring Python's `dict`;
* the `VFS` class operations `_get_node`, `list_directory`,
  `change_directory`, `remove`, `change_owner`, `get_vfs_info`;
* `shlex.split`, the command dispatcher `ShellEmulator.execute_command`
  (history and log bookkeeping included), and the startup-script loop
  `ConfigManager.execute_startup_script`.

State mutation in the Python source (in-place edits of the node dicts and of
`self.current_dir`, `self.command_history`, the log) is modeled by explicit
state passing: each operation returns the updated state together with the
value the Python method returns.
-/

namespace VfsShell

/-- `'/'`-character test used throughout the path helpers. -/
def isSlash (c : Char) : Bool := c = '/'

/-- Python `str.lstrip("/")` on the character list. -/
def lstripSlash (l : List Char) : List Char := l.dropWhile isSlash

/-- Python `str.rstrip("/")` on the character list, written recursively so
that proofs can proceed by structural induction. -/
def rstripSlash : List Char → List Char
  | [] => []
  | c :: cs =>
    match rstripSlash cs with
    | [] => if isSlash c then [] else [c]
    | r => c :: r

/-- Python `str.strip("/")`: slashes removed from both ends. -/
def stripSlash (l : List Char) : List Char := lstripSlash (rstripSlash l)

/-- Python `str.split("/")`: splitting on every slash, keeping empty pieces;
`"".split("/") = [""]`, so the result is never the empty list. -/
def splitSlash : List Char → List (List Char)
  | [] => [[]]
  | c :: cs =>
    if isSlash c then [] :: splitSlash cs
    else
      match splitSlash cs with
      | [] => [[c]]
      | t :: ts => (c :: t) :: ts

/-- The nonempty pieces of a slash-separated string: the "segments" of a
path (empty pieces produced by leading, trailing or doubled slashes are
dropped).  Used to state cursor movement and `".."`-literalness claims. -/
def segsCh (l : List Char) : List (List Char) := (splitSlash l).filter (fun p => p ≠ [])

/-- Everything up to and including the last `'/'` of the list (empty when
there is no slash): the first half of Python `os.path.dirname`. -/
def upToLastSlash : List Char → List Char
  | [] => []
  | c :: cs =>
    if '/' ∈ cs then c :: upToLastSlash cs
    else if isSlash c then ['/'] else []

/-- Python `posixpath.dirname`: the part before the final component; kept
verbatim when it consists solely of slashes, with trailing slashes removed
otherwise. -/
def dirnameCh (p : List Char) : List Char :=
  let head := upToLastSlash p
  if head.all isSlash then head else rstripSlash head

/-- Python `posixpath.basename`: the part after the last `'/'`. -/
def basenameCh (p : List Char) : List Char :=
  (p.reverse.takeWhile (fun c => !(isSlash c))).reverse

/-- Python `posixpath.join a b` for the two-argument form used by the
source (`os.path.join(self.current_dir, path)`). -/
def joinCh (a b : List Char) : List Char :=
  if b.head? = some '/' then b
  else if a = [] ∨ a.getLast? = some '/' then a ++ b
  else a ++ '/' :: b

/-- The source's `.replace("\\", "/")` applied after joining. -/
def replaceBackslash (l : List Char) : List Char :=
  l.map (fun c => if c = '\\' then '/' else c)

/-- Python `str.startswith("/")`. -/
def startsWithSlash (s : String) : Bool := s.data.head? = some '/'

/-!  ## The VFS tree

A Python node dict `{"type": "file", "content": <str>[, "owner": <str>]}` or
`{"type": "directory", "content": <dict name → node>[, "owner": <str>]}`.
`Entries` is the child dict: an insertion-ordered list of name/node pairs
with (in any dict actually arising) unique names. -/

mutual

inductive Node where
  | file (content : String) (owner : Option String) : Node
  | directory (content : Entries) (owner : Option String) : Node

inductive Entries where
  | nil : Entries
  | cons (name : String) (node : Node) (rest : Entries) : Entries

end

/-- Python `content[name]` lookup (first match; dict keys are unique). -/
def lookupE : Entries → String → Option Node
  | .nil, _ => none
  | .cons k v r, name => if k = name then some v else lookupE r name

/-- Python `list(content.keys())`: names in insertion order. -/
def keysE : Entries → List String
  | .nil => []
  | .cons k _ r => k :: keysE r

/-- Python `name in content`. -/
def memE (es : Entries) (name : String) : Bool := (lookupE es name).isSome

/-- Python `del content[name]` (removes the unique matching entry). -/
def eraseKey : Entries → String → Entries
  | .nil, _ => .nil
  | .cons k v r, name => if k = name then r else .cons k v (eraseKey r name)

/-- Replace the (first, hence unique) entry named `k` by applying `f`;
models an in-place update of `content[k]`. -/
def updateKey : Entries → String → (Node → Node) → Entries
  | .nil, _, _ => .nil
  | .cons k v r, name, f => if k = name then .cons k (f v) r else .cons k v (updateKey r name f)

/-- Python `node["owner"] = owner`. -/
def setOwner : Node → String → Node
  | .file c _, o => .file c (some o)
  | .directory es _, o => .directory es (some o)

mutual

/-- Well-formedness a tree built by the Python program always has: within
each directory the names are unique (dict keys) and nonempty
(`os.listdir` entries and the default skeleton's names). -/
def nodeWF : Node → Bool
  | .file _ _ => true
  | .directory es _ => entriesWF es

def entriesWF : Entries → Bool
  | .nil => true
  | .cons k v r => (k ≠ "" : Bool) && !(memE r k) && nodeWF v && entriesWF r

end

mutual

/-- No directory anywhere in the tree has a child literally named `".."`. -/
def nodeNoDotDot : Node → Bool
  | .file _ _ => true
  | .directory es _ => entriesNoDotDot es

def entriesNoDotDot : Entries → Bool
  | .nil => true
  | .cons k v r => (k ≠ ".." : Bool) && nodeNoDotDot v && entriesNoDotDot r

end

/-!  ## The VFS state and operations (`class VFS`) -/

/-- The `VFS` object: `self.filesystem` always is `{"/": root}`, so the root
node is stored directly; `self.current_dir`; `self.physical_path`. -/
structure VFSState where
  root : Node
  current_dir : String
  physical_path : Option String

/-- The parts Python's `_get_node` iterates over:
`path.strip("/").split("/")` (for `path == "/"` the loop body is skipped,
modeled by the empty part list). -/
def navParts (path : String) : List String :=
  if path = "/" then []
  else (splitSlash (stripSlash path.data)).map (fun l => ⟨l⟩)

/-- The loop of `_get_node`: follow directory children by exact name,
returning `none` as soon as a segment is missing or the node is a file. -/
def walk : Node → List String → Option Node
  | n, [] => some n
  | .directory es _, p :: ps =>
    match lookupE es p with
    | some c => walk c ps
    | none => none
  | .file _ _, _ :: _ => none

/-- `VFS._get_node` (lines 97–108). -/
def getNode (root : Node) (path : String) : Option Node :=
  walk root (navParts path)

/-- `VFS.list_directory` (lines 70–77): `path=None` defaults to the current
directory; child names in insertion order for a directory, `[]` otherwise. -/
def list_directory (v : VFSState) (path : Option String) : List String :=
  let p := path.getD v.current_dir
  match getNode v.root p with
  | some (.directory es _) => keysE es
  | _ => []

/-- `os.path.dirname(self.current_dir.rstrip('/')) or "/"` from
`change_directory`. -/
def parentDirStr (cur : String) : String :=
  let d := dirnameCh (rstripSlash cur.data)
  if d = [] then "/" else ⟨d⟩

/-- The absolute target `change_directory`/`remove` compute: the path
itself when absolute, otherwise
`os.path.join(self.current_dir, path).replace("\\", "/")`. -/
def targetPath (cur path : String) : String :=
  if startsWithSlash path then path
  else ⟨replaceBackslash (joinCh cur.data path.data)⟩

/-- `VFS.change_directory` (lines 79–95). -/
def change_directory (v : VFSState) (path : String) : VFSState × Bool :=
  if path = ".." then
    (if v.current_dir ≠ "/" then { v with current_dir := parentDirStr v.current_dir } else v, true)
  else
    match getNode v.root (targetPath v.current_dir path) with
    | some (.directory _ _) => ({ v with current_dir := targetPath v.current_dir path }, true)
    | _ => (v, false)

/-- Rebuild the tree with the child `name` of the directory at `parts`
removed; models the in-place `del parent_node["content"][item_name]`. -/
def removeChildAt : Node → List String → String → Node
  | .directory es o, [], name => .directory (eraseKey es name) o
  | .directory es o, p :: ps, name => .directory (updateKey es p (fun c => removeChildAt c ps name)) o
  | n, _, _ => n

/-- `remove`'s `parent_path = os.path.dirname(target_path)`. -/
def removeParent (v : VFSState) (path : String) : String :=
  ⟨dirnameCh (targetPath v.current_dir path).data⟩

/-- `remove`'s `item_name = os.path.basename(target_path)`. -/
def removeName (v : VFSState) (path : String) : String :=
  ⟨basenameCh (targetPath v.current_dir path).data⟩

/-- `VFS.remove` (lines 110–119). -/
def remove (v : VFSState) (path : String) : VFSState × Bool :=
  match getNode v.root (removeParent v path) with
  | some (.directory es _) =>
    if memE es (removeName v path) then
      ({ v with root := removeChildAt v.root (navParts (removeParent v path)) (removeName v path) },
        true)
    else (v, false)
  | _ => (v, false)

/-- Set the owner of the node reached by `parts`, rebuilding the spine;
`none` exactly when `_get_node` would fail.  Models the in-place
`node["owner"] = owner`. -/
def setOwnerAt : Node → List String → String → Option Node
  | n, [], o => some (setOwner n o)
  | .directory es ow, p :: ps, o =>
    match lookupE es p with
    | some c =>
      match setOwnerAt c ps o with
      | some c2 => some (.directory (updateKey es p (fun _ => c2)) ow)
      | none => none
    | none => none
  | .file _ _, _ :: _, _ => none

/-- `VFS.change_owner` (lines 121–127): the path is passed straight to
`_get_node` (no join with the current directory). -/
def change_owner (v : VFSState) (path owner : String) : VFSState × Bool :=
  match setOwnerAt v.root (navParts path) owner with
  | some r => ({ v with root := r }, true)
  | none => (v, false)

/-- The `default_vfs` skeleton from `VFS.__init__`. -/
def defaultRoot : Node :=
  .directory
    (.cons "home" (.directory .nil none)
      (.cons "etc" (.directory (.cons "motd" (.file "Welcome to VFS Emulator!" none) .nil) none)
        (.cons "bin" (.directory .nil none)
          (.cons "tmp" (.directory .nil none) .nil))))
    none

/-- A fresh `VFS()` built without a physical path. -/
def defaultVFS : VFSState := { root := defaultRoot, current_dir := "/", physical_path := none }

/-!  ## `get_vfs_info`: canonical JSON serialization and SHA-256

`get_vfs_info` computes `json.dumps(self.filesystem, sort_keys=True)` and
hashes its UTF-8 encoding with SHA-256.  `json.dumps` with `sort_keys=True`
emits every object's keys in sorted order, recursively; that is modeled by
serializing the recursively key-sorted (`canonNode`) tree with a plain
in-order serializer.  String escaping follows `json.dumps`'s defaults
(`ensure_ascii=True`, separators `", "`/`": "`). -/

/-- Sorted insertion of one entry by name (Python `sorted` on dict keys,
i.e. code-point lexicographic string order). -/
def insertEntry (k : String) (v : Node) : Entries → Entries
  | .nil => .cons k v .nil
  | .cons k2 v2 r => if k ≤ k2 then .cons k v (.cons k2 v2 r) else .cons k2 v2 (insertEntry k v r)

/-- Insertion sort of a directory's entries by name. -/
def sortEntries : Entries → Entries
  | .nil => .nil
  | .cons k v r => insertEntry k v (sortEntries r)

mutual

/-- The tree with every directory's entries sorted by name, recursively:
the canonical form whose in-order serialization is exactly
`json.dumps(..., sort_keys=True)`. -/
def canonNode : Node → Node
  | .file c o => .file c o
  | .directory es o => .directory (sortEntries (canonEntries es)) o

def canonEntries : Entries → Entries
  | .nil => .nil
  | .cons k v r => .cons k (canonNode v) (canonEntries r)

end

/-- Lowercase hexadecimal digit. -/
def hexDigit (n : Nat) : Char := if n < 10 then Char.ofNat (48 + n) else Char.ofNat (87 + n)

/-- Four lowercase hex digits, most significant first. -/
def hex4 (n : Nat) : List Char :=
  [hexDigit (n / 4096 % 16), hexDigit (n / 256 % 16), hexDigit (n / 16 % 16), hexDigit (n % 16)]

/-- A `\uXXXX` escape. -/
def uEsc (n : Nat) : List Char := '\\' :: 'u' :: hex4 n

/-- One character escaped as by `json.dumps` with `ensure_ascii=True`:
short escapes for `"`, `\`, newline, tab, CR, backspace, form feed;
`\uXXXX` (with surrogate pairs beyond the BMP) for other control or
non-ASCII characters; printable ASCII kept verbatim. -/
def jsonEscChar (c : Char) : List Char :=
  if c = '"' then ['\\', '"']
  else if c = '\\' then ['\\', '\\']
  else if c = '\n' then ['\\', 'n']
  else if c = '\t' then ['\\', 't']
  else if c = '\r' then ['\\', 'r']
  else if c.toNat = 8 then ['\\', 'b']
  else if c.toNat = 12 then ['\\', 'f']
  else if c.toNat < 32 ∨ c.toNat > 126 then
    if c.toNat < 65536 then uEsc c.toNat
    else uEsc (55296 + (c.toNat - 65536) / 1024) ++ uEsc (56320 + (c.toNat - 65536) % 1024)
  else [c]

/-- A JSON string literal. -/
def jsonStr (s : String) : List Char := '"' :: (s.data.map jsonEscChar).flatten ++ ['"']

/-- One `"key": value` item. -/
def jsonKV (k : String) (v : List Char) : List Char := jsonStr k ++ ':' :: ' ' :: v

/-- The `, "owner": "..."` item, present only when the owner attribute was
set (`"content" < "owner" < "type"` in sorted key order). -/
def ownerField : Option String → List Char
  | none => []
  | some s => ',' :: ' ' :: jsonKV "owner" (jsonStr s)

mutual

/-- In-order JSON serialization of a node dict (to be applied to the
canonical tree). -/
def dumpsNode : Node → List Char
  | .file c o =>
    '\x7b' :: (jsonKV "content" (jsonStr c) ++ ownerField o
      ++ ',' :: ' ' :: jsonKV "type" (jsonStr "file")) ++ ['\x7d']
  | .directory es o =>
    '\x7b' :: (jsonKV "content" ('\x7b' :: dumpsEntries es ++ ['\x7d']) ++ ownerField o
      ++ ',' :: ' ' :: jsonKV "type" (jsonStr "directory")) ++ ['\x7d']

/-- The items of a child dict, `", "`-separated, in list order. -/
def dumpsEntries : Entries → List Char
  | .nil => []
  | .cons k v .nil => jsonKV k (dumpsNode v)
  | .cons k v (.cons k2 v2 r) => jsonKV k (dumpsNode v) ++ ',' :: ' ' :: dumpsEntries (.cons k2 v2 r)

end

/-- `json.dumps(self.filesystem, sort_keys=True)` where
`self.filesystem = {"/": root}`. -/
def vfsSerial (root : Node) : List Char :=
  '\x7b' :: jsonKV "/" (dumpsNode (canonNode root)) ++ ['\x7d']

/-- UTF-8 encoding of one code point, as a list of byte values. -/
def utf8Char (n : Nat) : List Nat :=
  if n < 128 then [n]
  else if n < 2048 then [192 + n / 64, 128 + n % 64]
  else if n < 65536 then [224 + n / 4096, 128 + n / 64 % 64, 128 + n % 64]
  else [240 + n / 262144, 128 + n / 4096 % 64, 128 + n / 64 % 64, 128 + n % 64]

/-- Python `str.encode()`: UTF-8 bytes. -/
def strBytes (l : List Char) : List Nat := (l.map (fun c => utf8Char c.toNat)).flatten

/-- Reduction modulo `2^32`. -/
def w32 (n : Nat) : Nat := n % 4294967296

/-- 32-bit rotate right (arguments below `2^32`). -/
def rotr32 (x n : Nat) : Nat := x % 2 ^ n * 2 ^ (32 - n) + x / 2 ^ n

/-- Three-way XOR. -/
def xor3 (a b c : Nat) : Nat := Nat.xor (Nat.xor a b) c

/-- 32-bit complement. -/
def not32 (x : Nat) : Nat := Nat.xor x 4294967295

/-- SHA-256 Σ₀. -/
def bsig0 (x : Nat) : Nat := xor3 (rotr32 x 2) (rotr32 x 13) (rotr32 x 22)

/-- SHA-256 Σ₁. -/
def bsig1 (x : Nat) : Nat := xor3 (rotr32 x 6) (rotr32 x 11) (rotr32 x 25)

/-- SHA-256 σ₀. -/
def ssig0 (x : Nat) : Nat := xor3 (rotr32 x 7) (rotr32 x 18) (x / 2 ^ 3)

/-- SHA-256 σ₁. -/
def ssig1 (x : Nat) : Nat := xor3 (rotr32 x 17) (rotr32 x 19) (x / 2 ^ 10)

/-- SHA-256 Ch. -/
def chF (x y z : Nat) : Nat := Nat.xor (Nat.land x y) (Nat.land (not32 x) z)

/-- SHA-256 Maj. -/
def majF (x y z : Nat) : Nat := xor3 (Nat.land x y) (Nat.land x z) (Nat.land y z)

/-- The 64 SHA-256 round constants. -/
def K256 : List Nat :=
  [1116352408, 1899447441, 3049323471, 3921009573, 961987163, 1508970993, 2453635748, 2870763221,
   3624381080, 310598401, 607225278, 1426881987, 1925078388, 2162078206, 2614888103, 3248222580,
   3835390401, 4022224774, 264347078, 604807628, 770255983, 1249150122, 1555081692, 1996064986,
   2554220882, 2821834349, 2952996808, 3210313671, 3336571891, 3584528711, 113926993, 338241895,
   666307205, 773529912, 1294757372, 1396182291, 1695183700, 1986661051, 2177026350, 2456956037,
   2730485921, 2820302411, 3259730800, 3345764771, 3516065817, 3600352804, 4094571909, 275423344,
   430227734, 506948616, 659060556, 883997877, 958139571, 1322822218, 1537002063, 1747873779,
   1955562222, 2024104815, 2227730452, 2361852424, 2428436474, 2756734187, 3204031479, 3329325298]

/-- The SHA-256 initial hash values. -/
def H256init : List Nat :=
  [1779033703, 3144134277, 1013904242, 2773480762, 1359893119, 2600822924, 528734635, 1541459225]

/-- `n` bytes of `v`, big-endian. -/
def beBytes : Nat → Nat → List Nat
  | 0, _ => []
  | k + 1, v => beBytes k (v / 256) ++ [v % 256]

/-- SHA-256 message padding: `0x80`, zeros, 64-bit big-endian bit length. -/
def sha256pad (msg : List Nat) : List Nat :=
  msg ++ 128 :: List.replicate ((64 - (msg.length + 9) % 64) % 64) 0 ++ beBytes 8 (msg.length * 8)

/-- Big-endian 32-bit words from a byte list. -/
def bytesToWords : List Nat → List Nat
  | b0 :: b1 :: b2 :: b3 :: r => (((b0 * 256 + b1) * 256 + b2) * 256 + b3) :: bytesToWords r
  | _ => []

/-- One message-schedule extension step. -/
def extendStep (w : List Nat) : List Nat :=
  let n := w.length
  w ++ [w32 (ssig1 (w.getD (n - 2) 0) + w.getD (n - 7) 0 + ssig0 (w.getD (n - 15) 0) + w.getD (n - 16) 0)]

/-- Iterated schedule extension (48 steps: 16 words to 64). -/
def extendW : Nat → List Nat → List Nat
  | 0, w => w
  | f + 1, w => extendW f (extendStep w)

/-- The eight working variables of the compression function. -/
structure H8 where
  a : Nat
  b : Nat
  c : Nat
  d : Nat
  e : Nat
  f : Nat
  g : Nat
  h : Nat

/-- One compression round; `kw` is `k[i] + w[i] mod 2^32`. -/
def compressStep (s : H8) (kw : Nat) : H8 :=
  let t1 := w32 (s.h + bsig1 s.e + chF s.e s.f s.g + kw)
  let t2 := w32 (bsig0 s.a + majF s.a s.b s.c)
  { a := w32 (t1 + t2), b := s.a, c := s.b, d := s.c, e := w32 (s.d + t1), f := s.e, g := s.f, h := s.g }

/-- Compression of one 64-byte chunk into the running hash. -/
def compressChunk (h : List Nat) (chunk : List Nat) : List Nat :=
  let w := extendW 48 (bytesToWords chunk)
  let kw := List.zipWith (fun a b => w32 (a + b)) K256 w
  let s0 : H8 := ⟨h.getD 0 0, h.getD 1 0, h.getD 2 0, h.getD 3 0, h.getD 4 0, h.getD 5 0, h.getD 6 0, h.getD 7 0⟩
  let s := kw.foldl compressStep s0
  [w32 (s0.a + s.a), w32 (s0.b + s.b), w32 (s0.c + s.c), w32 (s0.d + s.d),
   w32 (s0.e + s.e), w32 (s0.f + s.f), w32 (s0.g + s.g), w32 (s0.h + s.h)]

/-- Split a padded message into its 64-byte chunks (`n` = chunk count). -/
def splitChunks : Nat → List Nat → List (List Nat)
  | 0, _ => []
  | n + 1, l => l.take 64 :: splitChunks n (l.drop 64)

/-- The eight 32-bit words of the SHA-256 digest of a byte list. -/
def sha256Words (msg : List Nat) : List Nat :=
  let p := sha256pad msg
  (splitChunks (p.length / 64) p).foldl compressChunk H256init

/-- A 32-bit word as eight lowercase hex digits. -/
def toHex8 (n : Nat) : List Char := hex4 (n / 65536) ++ hex4 (n % 65536)

/-- `hashlib.sha256(...).hexdigest()`. -/
def sha256hex (msg : List Nat) : String := ⟨((sha256Words msg).map toHex8).flatten⟩

/-- `VFS.get_vfs_info` (lines 63–68): the display name from the physical
path (`"default_vfs"` when none was given, `if self.physical_path` being a
truthiness test), and the SHA-256 hex digest of the key-sorted JSON
serialization of the whole tree. -/
def get_vfs_info (v : VFSState) : String × String :=
  let name : String :=
    match v.physical_path with
    | some p => if p = "" then "default_vfs" else ⟨basenameCh p.data⟩
    | none => "default_vfs"
  (name, sha256hex (strBytes (vfsSerial v.root)))

/-!  ## The command dispatcher (`class ShellEmulator`)

`shlex.split` in its default POSIX mode with whitespace splitting:
single quotes are fully literal, double quotes let `\` escape only `"` and
`\` (otherwise backslash and character are both kept), outside quotes `\`
escapes any character, and an unterminated quote or a trailing escape
raises `ValueError` (modeled by `none`). -/

/-- `shlex.whitespace`. -/
def isShlexSpace (c : Char) : Bool := c = ' ' ∨ c = '\t' ∨ c = '\r' ∨ c = '\n'

/-- Quoting state of the `shlex` scanner. -/
inductive LexState where
  | normal
  | singleQ
  | doubleQ

/-- The `shlex` scanner: input, quoting state, pending-escape flag, token
accumulated so far (`some` once a token has started, so that quotes can
produce empty tokens), tokens finished so far. -/
def shlexAux : List Char → LexState → Bool → Option (List Char) → List (List Char) →
    Option (List (List Char))
  | [], .normal, false, cur, acc =>
    some (acc ++ match cur with | some t => [t] | none => [])
  | [], _, _, _, _ => none
  | c :: rest, st, true, cur, acc =>
    match st with
    | .doubleQ =>
      if c = '"' ∨ c = '\\' then shlexAux rest .doubleQ false (some (cur.getD [] ++ [c])) acc
      else shlexAux rest .doubleQ false (some (cur.getD [] ++ ['\\', c])) acc
    | _ => shlexAux rest .normal false (some (cur.getD [] ++ [c])) acc
  | c :: rest, .singleQ, false, cur, acc =>
    if c = '\'' then shlexAux rest .normal false (some (cur.getD [])) acc
    else shlexAux rest .singleQ false (some (cur.getD [] ++ [c])) acc
  | c :: rest, .doubleQ, false, cur, acc =>
    if c = '"' then shlexAux rest .normal false (some (cur.getD [])) acc
    else if c = '\\' then shlexAux rest .doubleQ true (some (cur.getD [])) acc
    else shlexAux rest .doubleQ false (some (cur.getD [] ++ [c])) acc
  | c :: rest, .normal, false, cur, acc =>
    if isShlexSpace c then
      match cur with
      | some t => shlexAux rest .normal false none (acc ++ [t])
      | none => shlexAux rest .normal false none acc
    else if c = '\\' then shlexAux rest .normal true (some (cur.getD [])) acc
    else if c = '\'' then shlexAux rest .singleQ false (some (cur.getD [])) acc
    else if c = '"' then shlexAux rest .doubleQ false (some (cur.getD [])) acc
    else shlexAux rest .normal false (some (cur.getD [] ++ [c])) acc

/-- `shlex.split`; `none` models the `ValueError` raised on malformed
quoting. -/
def shlexSplit (s : String) : Option (List String) :=
  (shlexAux s.data .normal false none []).map (fun ts => ts.map (fun l => (⟨l⟩ : String)))

/-- `ShellEmulator.parse_command` (lines 253–258): the first token and the
rest, `("", [])` for an empty token list, and the fixed syntax-error
message when `shlex` raises. -/
def parse_command (s : String) : Except String (String × List String) :=
  match shlexSplit s with
  | none => .error "Ошибка синтаксиса: незакрытые кавычки"
  | some [] => .ok ("", [])
  | some (c :: r) => .ok (c, r)

/-- The `ShellEmulator` session state: the VFS, `self.command_history`, the
log entries passed to `ConfigManager.log_command` as
`(command, success, error_message)` (timestamp and username are appended by
the external logging collaborator), and the identity strings supplied by
`os.getlogin()` / `socket.gethostname()`. -/
structure ShellState where
  vfs : VFSState
  command_history : List String
  log : List (String × Bool × String)
  username : String
  hostname : String

/-- `ShellEmulator.cmd_ls` (lines 298–301). -/
def cmd_ls (v : VFSState) (args : List String) : Bool × String :=
  let items := list_directory v args.head?
  (true, if items ≠ [] then String.intercalate "\n" items else "Директория пуста")

/-- `ShellEmulator.cmd_cd` (lines 303–307). -/
def cmd_cd (v : VFSState) (args : List String) : VFSState × Bool × String :=
  match args with
  | [] => (v, false, "Использование: cd <путь>")
  | p :: _ =>
    let r := change_directory v p
    if r.2 then (r.1, true, "Текущая директория: " ++ r.1.current_dir)
    else (r.1, false, "Директория не найдена: " ++ p)

/-- `ShellEmulator.cmd_rm` (lines 315–317). -/
def cmd_rm (v : VFSState) (args : List String) : VFSState × Bool × String :=
  match args with
  | [] => (v, false, "Использование: rm <файл>")
  | p :: _ =>
    let r := remove v p
    if r.2 then (r.1, true, "Удалено: " ++ p) else (r.1, false, "Файл не найден: " ++ p)

/-- `ShellEmulator.cmd_chown` (lines 319–322); `args[0]` is the owner,
`args[1]` the path. -/
def cmd_chown (v : VFSState) (args : List String) : VFSState × Bool × String :=
  match args with
  | owner :: p :: _ =>
    let r := change_owner v p owner
    if r.2 then (r.1, true, "Владелец изменен: " ++ p ++ " -> " ++ owner)
    else (r.1, false, "Файл не найден: " ++ p)
  | _ => (v, false, "Использование: chown <владелец> <файл>")

/-- `ShellEmulator.cmd_help`'s static text (lines 331–343). -/
def helpText : String :=
  "Доступные команды:\n  ls [путь]            - список файлов\n  cd <путь>            - смена директории\n  whoami               - текущий пользователь\n  who                  - список пользователей\n  rm <файл>            - удалить файл\n  chown <владелец> <файл> - смена владельца\n  vfs-info             - информация о VFS\n  history              - история команд\n  help                 - справка\n  exit                 - выход из эмулятора\n"

/-- The `mapping` dispatch of `execute_command` (lines 273–286): the chosen
handler applied to the argument list, or the unknown-command failure.  Only
`self.vfs` is ever written by a handler, so the result carries the new VFS
beside the `(success, output)` pair.  `history` reads the history with the
current line already appended; `exit` (`self.root.quit()` returns `None`,
so `None or ""`) yields `(True, "")`. -/
def dispatch (s : ShellState) (cmd : String) (args : List String) : VFSState × Bool × String :=
  if cmd = "ls" then (s.vfs, cmd_ls s.vfs args)
  else if cmd = "cd" then cmd_cd s.vfs args
  else if cmd = "whoami" then (s.vfs, true, s.username)
  else if cmd = "who" then
    (s.vfs, true,
      String.intercalate "\n" ((["admin", s.username, "guest"]).map (fun u => u ++ "@" ++ s.hostname)))
  else if cmd = "rm" then cmd_rm s.vfs args
  else if cmd = "chown" then cmd_chown s.vfs args
  else if cmd = "vfs-info" then
    (s.vfs, true, "VFS: " ++ (get_vfs_info s.vfs).1 ++ "\nSHA-256: " ++ (get_vfs_info s.vfs).2)
  else if cmd = "help" then (s.vfs, true, helpText)
  else if cmd = "history" then (s.vfs, true, String.intercalate "\n" s.command_history)
  else if cmd = "exit" then (s.vfs, true, "")
  else (s.vfs, false, "Ошибка: неизвестная команда '" ++ cmd ++ "'")

/-- `ShellEmulator.execute_command` (lines 260–296) for an explicitly
supplied line (the interactive path passes the stripped entry text, the
script path the stripped script line).  Empty input is a no-op success.
Otherwise: parse; on a parse error, log once with `success=False` and the
error text, without touching the history; on parse success, append the raw
line to the history, dispatch, and log once with the raw line, the success
flag and the error text (empty on success). -/
def execute_command (s : ShellState) (cmd_str : String) : ShellState × Bool × String :=
  if cmd_str = "" then (s, true, "")
  else
    match parse_command cmd_str with
    | .error e =>
      let msg := "Ошибка: " ++ e
      ({ s with log := s.log ++ [(cmd_str, false, msg)] }, false, msg)
    | .ok (cmd, args) =>
      let s1 := { s with command_history := s.command_history ++ [cmd_str] }
      let r := dispatch s1 cmd args
      ({ s1 with vfs := r.1, log := s1.log ++ [(cmd_str, r.2.1, if r.2.1 then "" else r.2.2)] },
        r.2.1, r.2.2)

/-- Sequential execution of a list of command lines. -/
def runCommands (s : ShellState) (cmds : List String) : ShellState :=
  cmds.foldl (fun s c => (execute_command s c).1) s

/-- Python `str.strip()` (ASCII whitespace; the script lines at hand
contain no exotic Unicode spaces). -/
def isPySpace (c : Char) : Bool :=
  c = ' ' ∨ c = '\t' ∨ c = '\n' ∨ c = '\r' ∨ c = '\x0b' ∨ c = '\x0c'

/-- Python `line.strip()`. -/
def pyStrip (s : String) : String :=
  ⟨((s.data.dropWhile isPySpace).reverse.dropWhile isPySpace).reverse⟩

/-- A script line that is executed: nonempty after stripping and not a
`#` comment. -/
def effLine (line : String) : Bool :=
  let l := pyStrip line
  !(l = "" || l.data.head? = some '#')

/-- The loop of `ConfigManager.execute_startup_script` (lines 185–202),
carrying the 1-based line counter (`enumerate(f, 1)`, counting every line,
skipped ones included).  Returns the final state, the overall success flag,
and the reported line number at which execution halted (`none` on
success). -/
def runScriptAux : ShellState → List String → Nat → ShellState × Bool × Option Nat
  | s, [], _ => (s, true, none)
  | s, line :: rest, n =>
    if effLine line then
      let r := execute_command s (pyStrip line)
      if r.2.1 then runScriptAux r.1 rest (n + 1) else (r.1, false, some n)
    else runScriptAux s rest (n + 1)

/-- `ConfigManager.execute_startup_script` applied to the script's lines. -/
def execute_startup_script (s : ShellState) (lines : List String) : ShellState × Bool × Option Nat :=
  runScriptAux s lines 1

/-- A fresh session over the default VFS (identity strings are supplied by
the external identity collaborator; concrete values only matter to
`whoami`/`who`). -/
def initShell : ShellState :=
  { vfs := defaultVFS, command_history := [], log := [], username := "user", hostname := "host" }

/-!  ## Basic lemmas about entries, walking and well-formedness -/

/-- Structural induction over `Entries` alone (the joint recursor of the
mutual inductive has two motives, which the `induction` tactic cannot
use). -/
@[induction_eliminator]
theorem entriesInd {motive : Entries → Prop} (nil : motive .nil)
    (cons : ∀ k v r, motive r → motive (.cons k v r)) : ∀ es, motive es
  | .nil => nil
  | .cons k v r => cons k v r (entriesInd nil cons r)

@[simp] theorem lookupE_nil (k : String) : lookupE .nil k = none := rfl

@[simp] theorem lookupE_cons (k v r name) :
    lookupE (.cons k v r) name = if k = name then some v else lookupE r name := rfl

@[simp] theorem walk_nil (n : Node) : walk n [] = some n := by cases n <;> rfl

@[simp] theorem walk_cons_file (c o) (p : String) (ps : List String) :
    walk (.file c o) (p :: ps) = none := rfl

theorem walk_dir_some {es o c} {p : String} {ps : List String} (hl : lookupE es p = some c) :
    walk (.directory es o) (p :: ps) = walk c ps := by
  simp only [walk, hl]

theorem walk_dir_none {es o} {p : String} {ps : List String} (hl : lookupE es p = none) :
    walk (.directory es o) (p :: ps) = none := by
  simp only [walk, hl]

theorem memE_false_iff (es : Entries) (k : String) : memE es k = false ↔ lookupE es k = none := by
  unfold memE
  cases lookupE es k <;> simp

theorem memE_true_iff (es : Entries) (k : String) :
    memE es k = true ↔ ∃ c, lookupE es k = some c := by
  unfold memE
  cases lookupE es k <;> simp

theorem lookupE_updateKey_self (es : Entries) (k : String) (f : Node → Node) (c : Node)
    (h : lookupE es k = some c) : lookupE (updateKey es k f) k = some (f c) := by
  induction es with
  | nil => simp at h
  | cons k2 v r ih =>
    by_cases hk : k2 = k
    · subst hk
      simp at h
      subst h
      simp [updateKey]
    · simp [hk] at h
      simp [updateKey, hk]
      exact ih h

theorem lookupE_wf (es : Entries) (k : String) (c : Node) (hwf : entriesWF es = true)
    (h : lookupE es k = some c) : nodeWF c = true := by
  induction es with
  | nil => simp at h
  | cons k2 v r ih =>
    simp only [entriesWF, Bool.and_eq_true] at hwf
    by_cases hk : k2 = k
    · subst hk
      simp at h
      subst h
      exact hwf.1.2
    · simp [hk] at h
      exact ih hwf.2 h

theorem wf_walk (n : Node) (ps : List String) (m : Node) (hwf : nodeWF n = true)
    (h : walk n ps = some m) : nodeWF m = true := by
  induction ps generalizing n with
  | nil =>
    simp at h
    subst h
    exact hwf
  | cons p ps ih =>
    cases n with
    | file c o => simp at h
    | directory es o =>
      cases hl : lookupE es p with
      | none => rw [walk_dir_none hl] at h; simp at h
      | some c =>
        rw [walk_dir_some hl] at h
        exact ih c (lookupE_wf es p c hwf hl) h

theorem wf_no_empty (es : Entries) (hwf : entriesWF es = true) : lookupE es "" = none := by
  induction es with
  | nil => simp
  | cons k v r ih =>
    simp only [entriesWF, Bool.and_eq_true, decide_eq_true_eq] at hwf
    have hk : k ≠ "" := hwf.1.1.1
    simp [hk]
    exact ih hwf.2

/-!  ## C6: `list_directory` -/

/-- C6: `list` resolves its argument (defaulting to the current directory
when omitted) and returns the child names in insertion order when it
resolves to a Directory; it returns the empty sequence, with no distinct
error signal, both when the path resolves to a File and when it does not
resolve at all; being a pure function of the state, it never mutates the
tree. -/
theorem list_directory_spec (v : VFSState) (p : Option String) :
    (∀ es o, getNode v.root (p.getD v.current_dir) = some (.directory es o) →
      list_directory v p = keysE es) ∧
    (∀ c o, getNode v.root (p.getD v.current_dir) = some (.file c o) →
      list_directory v p = []) ∧
    (getNode v.root (p.getD v.current_dir) = none → list_directory v p = []) := by
  refine ⟨?_, ?_, ?_⟩
  · intro es o h
    simp only [list_directory, h]
  · intro c o h
    simp only [list_directory, h]
  · intro h
    simp only [list_directory, h]

/-- Witness for C6 at a concrete input: listing `/etc` of the default VFS. -/
theorem list_directory_spec_witness :
    list_directory defaultVFS (some "/etc")
      = keysE (.cons "motd" (.file "Welcome to VFS Emulator!" none) .nil) :=
  (list_directory_spec defaultVFS (some "/etc")).1
    (.cons "motd" (.file "Welcome to VFS Emulator!" none) .nil) none rfl

/-!  ## C8: `change_owner` -/

@[simp] theorem setOwnerAt_nil (n : Node) (o : String) :
    setOwnerAt n [] o = some (setOwner n o) := by
  cases n <;> rfl

theorem setOwnerAt_of_walk_none (n : Node) (ps : List String) (o : String)
    (h : walk n ps = none) : setOwnerAt n ps o = none := by
  induction ps generalizing n with
  | nil => simp at h
  | cons p ps ih =>
    cases n with
    | file c ow => rfl
    | directory es ow =>
      cases hl : lookupE es p with
      | none => simp [setOwnerAt, hl]
      | some c =>
        rw [walk_dir_some hl] at h
        simp [setOwnerAt, hl, ih c h]

theorem setOwnerAt_of_walk_some (n : Node) (ps : List String) (o : String) (m : Node)
    (h : walk n ps = some m) :
    ∃ r, setOwnerAt n ps o = some r ∧ walk r ps = some (setOwner m o) := by
  induction ps generalizing n with
  | nil =>
    simp at h
    subst h
    exact ⟨setOwner n o, setOwnerAt_nil n o, by simp⟩
  | cons p ps ih =>
    cases n with
    | file c ow => simp at h
    | directory es ow =>
      cases hl : lookupE es p with
      | none => rw [walk_dir_none hl] at h; simp at h
      | some c =>
        rw [walk_dir_some hl] at h
        obtain ⟨r, hr, hwr⟩ := ih c h
        refine ⟨.directory (updateKey es p (fun _ => r)) ow, ?_, ?_⟩
        · simp [setOwnerAt, hl, hr]
        · rw [walk_dir_some (lookupE_updateKey_self es p (fun _ => r) c hl)]
          exact hwr

/-- C8: `change_owner` passes its path straight to `_get_node`, so its
outcome does not depend on the current-directory cursor (and it never
moves the cursor); when a node exists at the path it returns true and the
node's owner attribute is set to the given string (the updated node is
what the same path now resolves to); when no node exists it returns false
and the state is completely unchanged. -/
theorem change_owner_spec (v : VFSState) (path owner : String) :
    ((change_owner v path owner).1.current_dir = v.current_dir ∧
     ∀ c : String, change_owner { v with current_dir := c } path owner
        = ({ (change_owner v path owner).1 with current_dir := c },
           (change_owner v path owner).2)) ∧
    (∀ n, getNode v.root path = some n →
      (change_owner v path owner).2 = true ∧
      getNode (change_owner v path owner).1.root path = some (setOwner n owner)) ∧
    (getNode v.root path = none → change_owner v path owner = (v, false)) := by
  refine ⟨⟨?_, ?_⟩, ?_, ?_⟩
  · unfold change_owner
    cases setOwnerAt v.root (navParts path) owner <;> simp
  · intro c
    unfold change_owner
    cases setOwnerAt v.root (navParts path) owner <;> simp
  · intro n h
    unfold getNode at h
    obtain ⟨r, hr, hwr⟩ := setOwnerAt_of_walk_some v.root (navParts path) owner n h
    unfold change_owner
    rw [hr]
    exact ⟨rfl, hwr⟩
  · intro h
    unfold getNode at h
    unfold change_owner
    rw [setOwnerAt_of_walk_none v.root (navParts path) owner h]

/-- Witness for C8: `chown` of `/etc/motd` in the default VFS, from two
different current directories. -/
theorem change_owner_spec_witness :
    (change_owner defaultVFS "/etc/motd" "bob").2 = true ∧
    getNode (change_owner defaultVFS "/etc/motd" "bob").1.root "/etc/motd"
      = some (setOwner (.file "Welcome to VFS Emulator!" none) "bob") ∧
    change_owner { defaultVFS with current_dir := "/tmp" } "/etc/motd" "bob"
      = ({ (change_owner defaultVFS "/etc/motd" "bob").1 with current_dir := "/tmp" },
         (change_owner defaultVFS "/etc/motd" "bob").2) := by
  have h := change_owner_spec defaultVFS "/etc/motd" "bob"
  exact ⟨(h.2.1 (.file "Welcome to VFS Emulator!" none) rfl).1,
         (h.2.1 (.file "Welcome to VFS Emulator!" none) rfl).2,
         h.1.2 "/tmp"⟩

/-!  ## C9: `remove` on paths with an empty final component -/

theorem basename_last_slash (l : List Char) (h : l.getLast? = some '/') : basenameCh l = [] := by
  unfold basenameCh
  have h2 : l.reverse.head? = some '/' := by rw [List.head?_reverse]; exact h
  cases hr : l.reverse with
  | nil => rw [hr] at h2; simp at h2
  | cons c t =>
    rw [hr] at h2
    simp at h2
    subst h2
    simp [isSlash]

theorem joinCh_last_slash (a b : List Char) (h : b.getLast? = some '/') :
    (joinCh a b).getLast? = some '/' := by
  have hb : b ≠ [] := by intro hb; rw [hb] at h; simp at h
  obtain ⟨x, t, hxt⟩ : ∃ x t, b = x :: t := by
    cases b with
    | nil => exact absurd rfl hb
    | cons x t => exact ⟨x, t, rfl⟩
  unfold joinCh
  split
  · exact h
  · split
    · rw [hxt, List.getLast?_append_cons, ← hxt]
      exact h
    · rw [List.getLast?_append_cons, hxt, List.getLast?_cons_cons, ← hxt]
      exact h

theorem replaceBackslash_last_slash (l : List Char) (h : l.getLast? = some '/') :
    (replaceBackslash l).getLast? = some '/' := by
  unfold replaceBackslash
  rw [List.getLast?_map, h]
  rfl

theorem targetPath_last_slash (cur path : String) (h : path.data.getLast? = some '/') :
    (targetPath cur path).data.getLast? = some '/' := by
  unfold targetPath
  split
  · exact h
  · exact replaceBackslash_last_slash _ (joinCh_last_slash _ _ h)

/-- C9: calling `remove` with the root path `"/"`, or any path whose final
component is empty (one ending in a slash): the extracted child name is the
empty string, which is never a key of a well-formed directory, so `remove`
returns false and leaves the state — the root node in particular —
completely unchanged. -/
theorem remove_empty_final_component (v : VFSState) (path : String)
    (hwf : nodeWF v.root = true) (h : path.data.getLast? = some '/') :
    removeName v path = "" ∧ remove v path = (v, false) := by
  have hname : removeName v path = "" := by
    unfold removeName
    rw [basename_last_slash _ (targetPath_last_slash v.current_dir path h)]
  refine ⟨hname, ?_⟩
  unfold remove
  cases hg : getNode v.root (removeParent v path) with
  | none => rfl
  | some n =>
    cases n with
    | file c o => rfl
    | directory es o =>
      have hwfn : entriesWF es = true := by
        have := wf_walk v.root (navParts (removeParent v path)) (.directory es o) hwf hg
        simpa [nodeWF] using this
      have hmem : memE es (removeName v path) = false := by
        rw [hname, memE_false_iff]
        exact wf_no_empty es hwfn
      simp [hmem]

/-- Witness for C9: `remove("/")` on the default VFS. -/
theorem remove_empty_final_component_witness :
    removeName defaultVFS "/" = "" ∧ remove defaultVFS "/" = (defaultVFS, false) :=
  remove_empty_final_component defaultVFS "/" (by decide) rfl

/-!  ## C3: empty segments in path resolution (corrected)

`_get_node` strips only *leading and trailing* slashes (`path.strip("/")`)
before splitting on `"/"`: an empty segment coming from a doubled interior
slash is *not* ignored — it is looked up as a literal (empty) child name
and makes resolution fail in any well-formed tree. -/

theorem walk_empty_segment (n : Node) (ps : List String) (hwf : nodeWF n = true)
    (h : "" ∈ ps) : walk n ps = none := by
  induction ps generalizing n with
  | nil => simp at h
  | cons p ps ih =>
    cases n with
    | file c o => rfl
    | directory es o =>
      have hwfe : entriesWF es = true := by simpa [nodeWF] using hwf
      rcases List.mem_cons.mp h with hp | hp
      · exact walk_dir_none (hp ▸ wf_no_empty es hwfe)
      · cases hl : lookupE es p with
        | none => exact walk_dir_none hl
        | some c =>
          rw [walk_dir_some hl]
          exact ih c (lookupE_wf es p c hwfe hl) hp

/-- The example tree `/a/b` used to refute C3. -/
def exTreeC3 : Node :=
  .directory (.cons "a" (.directory (.cons "b" (.file "x" none) .nil) none) .nil) none

/-- Counterexample to C3 as stated: `"/a/b"` and `"/a//b"` differ only in a
doubled slash, yet the former resolves to the file and the latter to
not-found — empty segments from doubled slashes are *not* ignored. -/
theorem path_resolution_counterexample :
    getNode exTreeC3 "/a/b" = some (.file "x" none) ∧
    getNode exTreeC3 "/a//b" = none ∧
    getNode exTreeC3 "/a//b" ≠ getNode exTreeC3 "/a/b" := by
  refine ⟨rfl, rfl, fun h => ?_⟩
  have h2 : (none : Option Node) = some (.file "x" none) := h
  exact Option.noConfusion h2

/-- C3 amended: resolution splits `path.strip("/")` on `"/"`, so only
*leading and trailing* slashes are ignored: any two paths with the same
stripped form resolve to the same node; an empty segment arising from a
doubled *interior* slash is looked up as a literal child name, which fails
in every well-formed tree; and a missing or non-Directory intermediate
segment yields the uniform not-found result (`none`), resolution otherwise
proceeding by exact-name lookup in a Directory. -/
theorem path_resolution_amended (t : Node) :
    (∀ p q : String, stripSlash p.data ≠ [] → stripSlash p.data = stripSlash q.data →
      getNode t p = getNode t q) ∧
    (∀ p : String, nodeWF t = true → p ≠ "/" → [] ∈ splitSlash (stripSlash p.data) →
      getNode t p = none) ∧
    (∀ (p : String) (ps : List String) (n : Node), walk n (p :: ps) ≠ none →
      ∃ es o c, n = .directory es o ∧ lookupE es p = some c ∧ walk n (p :: ps) = walk c ps) := by
  refine ⟨?_, ?_, ?_⟩
  · intro p q hne heq
    have hp : p ≠ "/" := by
      intro hc
      subst hc
      exact hne rfl
    have hq : q ≠ "/" := by
      intro hc
      subst hc
      rw [heq] at hne
      exact hne rfl
    unfold getNode navParts
    rw [if_neg hp, if_neg hq, heq]
  · intro p hwf hp h
    unfold getNode
    apply walk_empty_segment t (navParts p) hwf
    unfold navParts
    rw [if_neg hp]
    exact List.mem_map.mpr ⟨[], h, rfl⟩
  · intro p ps n h
    cases n with
    | file c o => exact absurd rfl h
    | directory es o =>
      cases hl : lookupE es p with
      | none => exact absurd (walk_dir_none hl) h
      | some c => exact ⟨es, o, c, rfl, hl, walk_dir_some hl⟩

/-- Witness for the amended C3: `"a"` and `"/a/"` (same stripped form)
resolve identically, and `"/a//b"` resolves to not-found. -/
theorem path_resolution_amended_witness :
    getNode exTreeC3 "a" = getNode exTreeC3 "/a/" ∧ getNode exTreeC3 "/a//b" = none :=
  ⟨(path_resolution_amended exTreeC3).1 "a" "/a/" (by decide) (by decide),
   (path_resolution_amended exTreeC3).2.1 "/a//b" (by decide) (by decide) (by decide)⟩

/-!  ## C4: `remove` -/

theorem lookupE_eraseKey_self (es : Entries) (name : String) (hwf : entriesWF es = true) :
    lookupE (eraseKey es name) name = none := by
  induction es with
  | nil => simp [eraseKey]
  | cons k v r ih =>
    simp only [entriesWF, Bool.and_eq_true] at hwf
    by_cases hk : k = name
    · subst hk
      simp only [eraseKey, if_pos rfl]
      rw [← memE_false_iff]
      simpa using hwf.1.1.2
    · simp only [eraseKey, if_neg hk]
      simp [hk]
      exact ih hwf.2

theorem lookupE_eraseKey_other (es : Entries) (name m : String) (hm : m ≠ name) :
    lookupE (eraseKey es name) m = lookupE es m := by
  induction es with
  | nil => simp [eraseKey]
  | cons k v r ih =>
    by_cases hk : k = name
    · subst hk
      simp only [eraseKey, if_pos rfl]
      have : k ≠ m := fun hc => hm hc.symm
      simp [this]
    · simp only [eraseKey, if_neg hk]
      by_cases hkm : k = m
      · simp [hkm]
      · simp [hkm]
        exact ih

theorem keysE_eraseKey (es : Entries) (name : String) :
    keysE (eraseKey es name) = (keysE es).erase name := by
  induction es with
  | nil => simp [eraseKey, keysE]
  | cons k v r ih =>
    by_cases hk : k = name
    · subst hk
      simp [eraseKey, keysE]
    · simp [eraseKey, keysE, hk, List.erase_cons_tail, ih]

theorem mem_keysE (es : Entries) (k : String) : k ∈ keysE es ↔ memE es k = true := by
  induction es with
  | nil => simp [keysE, memE]
  | cons k2 v r ih =>
    by_cases hk : k2 = k
    · subst hk
      simp [keysE, memE]
    · have hk2 : k ≠ k2 := fun hc => hk hc.symm
      simp [keysE, memE, hk, hk2] at ih ⊢
      exact ih

theorem walk_removeChildAt (root : Node) (ps : List String) (name : String) (es : Entries)
    (o : Option String) (h : walk root ps = some (.directory es o)) :
    walk (removeChildAt root ps name) ps = some (.directory (eraseKey es name) o) := by
  induction ps generalizing root with
  | nil =>
    simp at h
    subst h
    simp [removeChildAt]
  | cons p ps ih =>
    cases root with
    | file c ow => simp at h
    | directory es0 ow =>
      cases hl : lookupE es0 p with
      | none => rw [walk_dir_none hl] at h; simp at h
      | some c =>
        rw [walk_dir_some hl] at h
        show walk (.directory (updateKey es0 p (fun c => removeChildAt c ps name)) ow) (p :: ps)
          = some (.directory (eraseKey es name) o)
        rw [walk_dir_some (lookupE_updateKey_self es0 p (fun c => removeChildAt c ps name) c hl)]
        exact ih c h

theorem remove_eq_of_found (v : VFSState) (path : String) (es : Entries) (o : Option String)
    (hg : getNode v.root (removeParent v path) = some (.directory es o))
    (hm : memE es (removeName v path) = true) :
    remove v path
      = ({ v with
            root := removeChildAt v.root (navParts (removeParent v path)) (removeName v path) },
         true) := by
  unfold remove
  rw [hg]
  simp [hm]

theorem remove_eq_not_found (v : VFSState) (path : String)
    (h : ∀ es o, getNode v.root (removeParent v path) = some (.directory es o) →
      memE es (removeName v path) = false) :
    remove v path = (v, false) := by
  unfold remove
  cases hg : getNode v.root (removeParent v path) with
  | none => rfl
  | some n =>
    cases n with
    | file c ow => rfl
    | directory es ow => simp [h es ow hg]

/-- C4: `remove` succeeds exactly when the computed parent path (the path
joined to the current directory when relative, then `dirname`-ed) resolves
to a Directory containing the final component as a child; on success
precisely that child is deleted — the parent now resolves to the same
directory with the entry erased, a later listing of the parent is the old
listing with the name erased and never includes it, every other child is
untouched, and the cursor and physical path are untouched; otherwise it
returns false and the state is completely unchanged. -/
theorem remove_spec (v : VFSState) (path : String) (hwf : nodeWF v.root = true) :
    ((remove v path).2 = true ↔
      ∃ es o, getNode v.root (removeParent v path) = some (.directory es o) ∧
        memE es (removeName v path) = true) ∧
    (∀ es o, getNode v.root (removeParent v path) = some (.directory es o) →
      memE es (removeName v path) = true →
      remove v path
        = ({ v with
              root := removeChildAt v.root (navParts (removeParent v path)) (removeName v path) },
           true) ∧
      getNode (remove v path).1.root (removeParent v path)
        = some (.directory (eraseKey es (removeName v path)) o) ∧
      list_directory (remove v path).1 (some (removeParent v path))
        = (keysE es).erase (removeName v path) ∧
      removeName v path ∉ list_directory (remove v path).1 (some (removeParent v path)) ∧
      (∀ m, m ≠ removeName v path →
        lookupE (eraseKey es (removeName v path)) m = lookupE es m) ∧
      (remove v path).1.current_dir = v.current_dir ∧
      (remove v path).1.physical_path = v.physical_path) ∧
    ((remove v path).2 = false → remove v path = (v, false)) := by
  have hmain : ∀ es o, getNode v.root (removeParent v path) = some (.directory es o) →
      memE es (removeName v path) = true →
      getNode (remove v path).1.root (removeParent v path)
        = some (.directory (eraseKey es (removeName v path)) o) := by
    intro es o hg hm
    rw [remove_eq_of_found v path es o hg hm]
    exact walk_removeChildAt v.root (navParts (removeParent v path)) (removeName v path) es o hg
  refine ⟨?_, ?_, ?_⟩
  · constructor
    · intro h
      by_cases hex : ∃ es o, getNode v.root (removeParent v path) = some (.directory es o) ∧
          memE es (removeName v path) = true
      · exact hex
      · push_neg at hex
        have : remove v path = (v, false) := by
          apply remove_eq_not_found
          intro es o hg
          have := hex es o hg
          simpa using this
        rw [this] at h
        simp at h
    · rintro ⟨es, o, hg, hm⟩
      rw [remove_eq_of_found v path es o hg hm]
  · intro es o hg hm
    have hget := hmain es o hg hm
    have hwfe : entriesWF es = true := by
      have := wf_walk v.root (navParts (removeParent v path)) (.directory es o) hwf hg
      simpa [nodeWF] using this
    have hlist : list_directory (remove v path).1 (some (removeParent v path))
        = keysE (eraseKey es (removeName v path)) := by
      simp only [list_directory, Option.getD_some, hget]
    refine ⟨remove_eq_of_found v path es o hg hm, hget, ?_, ?_, ?_, ?_, ?_⟩
    · rw [hlist, keysE_eraseKey]
    · rw [hlist]
      intro hc
      have := (mem_keysE _ _).mp hc
      rw [memE] at this
      rw [lookupE_eraseKey_self es (removeName v path) hwfe] at this
      simp at this
    · intro m hm2
      exact lookupE_eraseKey_other es (removeName v path) m hm2
    · rw [remove_eq_of_found v path es o hg hm]
    · rw [remove_eq_of_found v path es o hg hm]
  · intro h
    apply remove_eq_not_found
    intro es o hg
    by_cases hm : memE es (removeName v path) = true
    · rw [remove_eq_of_found v path es o hg hm] at h
      simp at h
    · simpa using hm

/-- Witness for C4: removing `/etc/motd` from the default VFS. -/
theorem remove_spec_witness :
    remove defaultVFS "/etc/motd"
      = ({ defaultVFS with
            root := removeChildAt defaultVFS.root (navParts (removeParent defaultVFS "/etc/motd"))
              (removeName defaultVFS "/etc/motd") },
         true) ∧
    list_directory (remove defaultVFS "/etc/motd").1 (some (removeParent defaultVFS "/etc/motd"))
      = (keysE (.cons "motd" (.file "Welcome to VFS Emulator!" none) .nil)).erase
          (removeName defaultVFS "/etc/motd") ∧
    removeName defaultVFS "/etc/motd"
      ∉ list_directory (remove defaultVFS "/etc/motd").1
          (some (removeParent defaultVFS "/etc/motd")) := by
  have h := (remove_spec defaultVFS "/etc/motd" (by decide)).2.1
    (.cons "motd" (.file "Welcome to VFS Emulator!" none) .nil) none rfl (by decide)
  exact ⟨h.1, h.2.2.1, h.2.2.2.1⟩

/-!  ## C5: `change_directory` and one-segment cursor movement

"Moves the cursor exactly one segment toward the root" is stated through
`segsCh`: the nonempty slash-separated segments of the new cursor string
are exactly the old ones with the last dropped. -/

@[simp] theorem splitSlash_nil : splitSlash [] = [[]] := rfl

theorem splitSlash_cons_slash (cs : List Char) : splitSlash ('/' :: cs) = [] :: splitSlash cs := by
  simp [splitSlash, isSlash]

theorem splitSlash_cons_of (c : Char) (cs t : List Char) (ts : List (List Char)) (hc : c ≠ '/')
    (h : splitSlash cs = t :: ts) : splitSlash (c :: cs) = (c :: t) :: ts := by
  simp [splitSlash, isSlash, hc, h]

theorem splitSlash_ne_nil (l : List Char) : splitSlash l ≠ [] := by
  induction l with
  | nil => simp
  | cons c cs ih =>
    by_cases hc : c = '/'
    · subst hc
      rw [splitSlash_cons_slash]
      simp
    · cases h : splitSlash cs with
      | nil => exact absurd h ih
      | cons t ts =>
        rw [splitSlash_cons_of c cs t ts hc h]
        simp

theorem splitSlash_append_slash (x y : List Char) :
    splitSlash (x ++ '/' :: y) = splitSlash x ++ splitSlash y := by
  induction x with
  | nil => simp [splitSlash_cons_slash]
  | cons c x ih =>
    by_cases hc : c = '/'
    · subst hc
      rw [List.cons_append, splitSlash_cons_slash, splitSlash_cons_slash, ih, List.cons_append]
    · obtain ⟨t, ts, hx⟩ : ∃ t ts, splitSlash x = t :: ts := by
        cases h : splitSlash x with
        | nil => exact absurd h (splitSlash_ne_nil x)
        | cons t ts => exact ⟨t, ts, rfl⟩
      have hx2 : splitSlash (x ++ '/' :: y) = (t :: ts) ++ splitSlash y := by rw [ih, hx]
      rw [List.cons_append, splitSlash_cons_of c _ _ _ hc hx2,
        splitSlash_cons_of c x t ts hc hx]
      simp

@[simp] theorem segsCh_nil : segsCh [] = [] := rfl

theorem segsCh_append_slash (x y : List Char) : segsCh (x ++ '/' :: y) = segsCh x ++ segsCh y := by
  unfold segsCh
  rw [splitSlash_append_slash, List.filter_append]

theorem splitSlash_no_slash (x : List Char) (h : '/' ∉ x) : splitSlash x = [x] := by
  induction x with
  | nil => rfl
  | cons c cs ih =>
    have hc : c ≠ '/' := fun hc => h (hc ▸ List.mem_cons_self c cs)
    have hcs : '/' ∉ cs := fun hm => h (List.mem_cons_of_mem c hm)
    exact splitSlash_cons_of c cs cs [] hc (ih hcs)

theorem segsCh_no_slash (x : List Char) (h : '/' ∉ x) (hne : x ≠ []) : segsCh x = [x] := by
  unfold segsCh
  rw [splitSlash_no_slash x h]
  simp [hne]

theorem segsCh_all_slash : ∀ (t : List Char), (∀ c ∈ t, c = '/') → segsCh t = []
  | [], _ => rfl
  | c :: cs, h => by
    have hc : c = '/' := h c (List.mem_cons_self c cs)
    have hcs := segsCh_all_slash cs (fun x hm => h x (List.mem_cons_of_mem _ hm))
    subst hc
    unfold segsCh at hcs ⊢
    rw [splitSlash_cons_slash]
    simpa using hcs

theorem segsCh_append_slashes (x t : List Char) (h : ∀ c ∈ t, c = '/') :
    segsCh (x ++ t) = segsCh x := by
  cases t with
  | nil => simp
  | cons c cs =>
    have hc : c = '/' := h c (List.mem_cons_self c cs)
    subst hc
    rw [segsCh_append_slash, segsCh_all_slash cs (fun c hm => h c (List.mem_cons_of_mem _ hm))]
    simp

theorem rstripSlash_cons_nil (c : Char) (cs : List Char) (h : rstripSlash cs = []) :
    rstripSlash (c :: cs) = if isSlash c then [] else [c] := by
  simp [rstripSlash, h]

theorem rstripSlash_cons_cons (c : Char) (cs r : List Char) (rc : Char)
    (h : rstripSlash cs = rc :: r) : rstripSlash (c :: cs) = c :: rc :: r := by
  simp [rstripSlash, h]

theorem rstripSlash_decomp (l : List Char) :
    ∃ t, l = rstripSlash l ++ t ∧ ∀ c ∈ t, c = '/' := by
  induction l with
  | nil => exact ⟨[], rfl, by simp⟩
  | cons c cs ih =>
    obtain ⟨t, ht, hall⟩ := ih
    cases hr : rstripSlash cs with
    | nil =>
      rw [hr] at ht
      simp at ht
      by_cases hc : c = '/'
      · refine ⟨c :: cs, ?_, ?_⟩
        · rw [rstripSlash_cons_nil c cs hr, if_pos (by simp [isSlash, hc])]
          rfl
        · intro x hx
          rcases List.mem_cons.mp hx with h1 | h1
          · exact h1.trans hc
          · exact hall x (ht ▸ h1)
      · refine ⟨cs, ?_, fun x hx => hall x (ht ▸ hx)⟩
        rw [rstripSlash_cons_nil c cs hr, if_neg (by simp [isSlash, hc])]
        rfl
    | cons rc r =>
      rw [hr] at ht
      refine ⟨t, ?_, hall⟩
      rw [rstripSlash_cons_cons c cs r rc hr]
      rw [List.cons_append, ← ht]

theorem rstripSlash_last (l : List Char) :
    rstripSlash l = [] ∨ (rstripSlash l).getLast? ≠ some '/' := by
  induction l with
  | nil => exact Or.inl rfl
  | cons c cs ih =>
    cases hr : rstripSlash cs with
    | nil =>
      by_cases hc : c = '/'
      · left
        rw [rstripSlash_cons_nil c cs hr, if_pos (by simp [isSlash, hc])]
      · right
        rw [rstripSlash_cons_nil c cs hr, if_neg (by simp [isSlash, hc])]
        simp [hc]
    | cons rc r =>
      right
      rw [rstripSlash_cons_cons c cs r rc hr, List.getLast?_cons_cons]
      rcases ih with h | h
      · rw [hr] at h
        exact absurd h (by simp)
      · rw [hr] at h
        exact h

theorem upToLastSlash_no_slash (p : List Char) (h : '/' ∉ p) : upToLastSlash p = [] := by
  induction p with
  | nil => rfl
  | cons c cs ih =>
    have hc : c ≠ '/' := fun hc => h (hc ▸ List.mem_cons_self c cs)
    have hcs : '/' ∉ cs := fun hm => h (List.mem_cons_of_mem c hm)
    unfold upToLastSlash
    rw [if_neg hcs, if_neg (by simp [isSlash, hc])]

theorem upToLastSlash_cons (c : Char) (cs : List Char) :
    upToLastSlash (c :: cs)
      = if '/' ∈ cs then c :: upToLastSlash cs else if isSlash c then ['/'] else [] := rfl

theorem upToLastSlash_decomp (pre last : List Char) (h : '/' ∉ last) :
    upToLastSlash (pre ++ '/' :: last) = pre ++ ['/'] := by
  induction pre with
  | nil =>
    rw [List.nil_append, upToLastSlash_cons, if_neg h, if_pos (by simp [isSlash])]
    rfl
  | cons c pre ih =>
    have hmem : '/' ∈ pre ++ '/' :: last := List.mem_append_right pre (List.mem_cons_self _ _)
    show upToLastSlash (c :: (pre ++ '/' :: last)) = c :: (pre ++ ['/'])
    rw [upToLastSlash_cons, if_pos hmem, ih]

theorem slash_cases (body : List Char) :
    '/' ∉ body ∨ ∃ pre last, body = pre ++ '/' :: last ∧ '/' ∉ last := by
  induction body with
  | nil => exact Or.inl (by simp)
  | cons c cs ih =>
    by_cases hm : '/' ∈ cs
    · rcases ih with h | ⟨pre, last, h1, h2⟩
      · exact absurd hm h
      · exact Or.inr ⟨c :: pre, last, by rw [h1]; rfl, h2⟩
    · by_cases hc : c = '/'
      · subst hc
        exact Or.inr ⟨[], cs, rfl, hm⟩
      · refine Or.inl ?_
        intro hmem
        rcases List.mem_cons.mp hmem with h1 | h1
        · exact hc h1.symm
        · exact hm h1

theorem segs_dirname_rstrip (l : List Char) :
    segsCh (dirnameCh (rstripSlash l)) = (segsCh l).dropLast := by
  obtain ⟨t, ht, hall⟩ := rstripSlash_decomp l
  have hsegs : segsCh l = segsCh (rstripSlash l) := by
    conv => lhs; rw [ht]
    exact segsCh_append_slashes _ t hall
  rw [hsegs]
  generalize hbody : rstripSlash l = body at *
  rcases slash_cases body with hno | ⟨pre, last, hb, hlast⟩
  · unfold dirnameCh
    rw [upToLastSlash_no_slash body hno]
    simp only [List.all_nil, if_pos rfl]
    by_cases hne : body = []
    · subst hne
      simp
    · rw [segsCh_no_slash body hno hne]
      simp
  · have hlast_ne : last ≠ [] := by
      intro hc
      subst hc
      rcases rstripSlash_last l with h | h
      · rw [hbody] at h
        subst h
        simp at hb
      · rw [hbody] at h
        apply h
        rw [hb, List.getLast?_append_cons]
        rfl
    have hsegs_head : segsCh (pre ++ ['/']) = segsCh pre := by
      have : (['/'] : List Char) = '/' :: [] := rfl
      rw [this, segsCh_append_slash]
      simp
    have hdq : ∀ q : List Char, dirnameCh q
        = if (upToLastSlash q).all isSlash then upToLastSlash q
          else rstripSlash (upToLastSlash q) := fun q => rfl
    rw [hb, hdq, upToLastSlash_decomp pre last hlast, segsCh_append_slash pre last,
      segsCh_no_slash last hlast hlast_ne, List.dropLast_concat]
    split
    · exact hsegs_head
    · obtain ⟨t2, ht2, hall2⟩ := rstripSlash_decomp (pre ++ ['/'])
      have h2 : segsCh (pre ++ ['/']) = segsCh (rstripSlash (pre ++ ['/'])) := by
        conv => lhs; rw [ht2]
        exact segsCh_append_slashes _ t2 hall2
      rw [← h2]
      exact hsegs_head

theorem segs_parentDirStr (cur : String) :
    segsCh (parentDirStr cur).data = (segsCh cur.data).dropLast := by
  rw [← segs_dirname_rstrip cur.data]
  simp only [parentDirStr]
  split
  · next h => rw [h]; rfl
  · rfl

/-- Whether an optional resolution result is a Directory node. -/
def isDirOpt : Option Node → Bool
  | some (.directory _ _) => true
  | _ => false

/-- C5: `change_directory("..")` always returns true without touching the
tree; at the root it leaves the whole state unchanged, and at any non-root
cursor the new cursor's segments are exactly the old cursor's segments
minus the last one (one segment toward the root).  For any other argument
the target is the path itself when absolute, else the join with the
current directory: when it resolves to a Directory the cursor is set to it
and true is returned; otherwise false is returned and the state is left
unchanged. -/
theorem change_directory_spec (v : VFSState) (path : String) :
    (path = ".." →
      (change_directory v path).2 = true ∧
      (change_directory v path).1.root = v.root ∧
      (v.current_dir = "/" → (change_directory v path).1 = v) ∧
      (v.current_dir ≠ "/" →
        segsCh (change_directory v path).1.current_dir.data
          = (segsCh v.current_dir.data).dropLast)) ∧
    (path ≠ ".." →
      (isDirOpt (getNode v.root (targetPath v.current_dir path)) = true →
        change_directory v path
          = ({ v with current_dir := targetPath v.current_dir path }, true)) ∧
      (isDirOpt (getNode v.root (targetPath v.current_dir path)) = false →
        change_directory v path = (v, false))) := by
  constructor
  · intro hp
    subst hp
    by_cases hcur : v.current_dir = "/"
    · refine ⟨by simp [change_directory, hcur], by simp [change_directory, hcur], fun _ => by simp [change_directory, hcur], fun hc => absurd hcur hc⟩
    · refine ⟨by simp [change_directory, hcur], by simp [change_directory, hcur], fun hc => absurd hc hcur, fun _ => ?_⟩
      have h1 : (change_directory v "..").1.current_dir = parentDirStr v.current_dir := by
        simp [change_directory, hcur]
      rw [h1]
      exact segs_parentDirStr v.current_dir
  · intro hp
    constructor
    · intro hdir
      unfold change_directory
      rw [if_neg hp]
      cases hg : getNode v.root (targetPath v.current_dir path) with
      | none => rw [hg] at hdir; simp [isDirOpt] at hdir
      | some n =>
        cases n with
        | file c o => rw [hg] at hdir; simp [isDirOpt] at hdir
        | directory es o => rfl
    · intro hdir
      unfold change_directory
      rw [if_neg hp]
      cases hg : getNode v.root (targetPath v.current_dir path) with
      | none => rfl
      | some n =>
        cases n with
        | file c o => rfl
        | directory es o => rw [hg] at hdir; simp [isDirOpt] at hdir

/-- Witness for C5: `cd ..` at `/etc` moves to the root's segment list, and
`cd etc` from the root succeeds. -/
theorem change_directory_spec_witness :
    segsCh (change_directory { defaultVFS with current_dir := "/etc" } "..").1.current_dir.data
      = (segsCh "/etc".data).dropLast ∧
    change_directory defaultVFS "etc"
      = ({ defaultVFS with current_dir := targetPath defaultVFS.current_dir "etc" }, true) ∧
    change_directory defaultVFS "nope" = (defaultVFS, false) := by
  refine ⟨?_, ?_, ?_⟩
  · exact ((change_directory_spec { defaultVFS with current_dir := "/etc" } "..").1 rfl).2.2.2
      (by decide)
  · exact ((change_directory_spec defaultVFS "etc").2 (by decide)).1 (by decide)
  · exact ((change_directory_spec defaultVFS "nope").2 (by decide)).2 (by decide)

/-!  ## C10: `".."` is special only as the whole argument -/

theorem noDotDot_lookup (es : Entries) (hnd : entriesNoDotDot es = true) :
    lookupE es ".." = none := by
  induction es with
  | nil => simp
  | cons k v r ih =>
    simp only [entriesNoDotDot, Bool.and_eq_true, decide_eq_true_eq] at hnd
    simp [hnd.1.1]
    exact ih hnd.2

theorem noDotDot_lookup_child (es : Entries) (k : String) (c : Node)
    (hnd : entriesNoDotDot es = true) (h : lookupE es k = some c) : nodeNoDotDot c = true := by
  induction es with
  | nil => simp at h
  | cons k2 v r ih =>
    simp only [entriesNoDotDot, Bool.and_eq_true] at hnd
    by_cases hk : k2 = k
    · subst hk
      simp at h
      subst h
      exact hnd.1.2
    · simp [hk] at h
      exact ih hnd.2 h

theorem walk_dotdot (n : Node) (ps : List String) (hnd : nodeNoDotDot n = true)
    (h : ".." ∈ ps) : walk n ps = none := by
  induction ps generalizing n with
  | nil => simp at h
  | cons p ps ih =>
    cases n with
    | file c o => rfl
    | directory es o =>
      have hnde : entriesNoDotDot es = true := by simpa [nodeNoDotDot] using hnd
      rcases List.mem_cons.mp h with hp | hp
      · exact walk_dir_none (hp ▸ noDotDot_lookup es hnde)
      · cases hl : lookupE es p with
        | none => exact walk_dir_none hl
        | some c =>
          rw [walk_dir_some hl]
          exact ih c (noDotDot_lookup_child es p c hnde hl) hp

theorem walk_append (n : Node) (l1 l2 : List String) :
    walk n (l1 ++ l2) = (walk n l1).bind (fun m => walk m l2) := by
  induction l1 generalizing n with
  | nil => simp
  | cons p l1 ih =>
    cases n with
    | file c o => rfl
    | directory es o =>
      cases hl : lookupE es p with
      | none =>
        rw [List.cons_append, walk_dir_none hl, walk_dir_none hl]
        rfl
      | some c =>
        rw [List.cons_append, walk_dir_some hl, walk_dir_some hl]
        exact ih c

/-- C10: the parent reference `".."` is honored only when it is the entire
argument of `change_directory`; a `".."` occurring as a segment of the
resolved target is looked up as a literal child name: in a tree with no
child actually named `".."` the resolution fails and `change_directory`
returns false leaving the state unchanged, and in general a successful
resolution through a `".."` segment forces a directory on the way whose
entries literally contain the name `".."`. -/
theorem dotdot_literal_spec (v : VFSState) (path : String) (hne : path ≠ "..") :
    (nodeNoDotDot v.root = true →
      ".." ∈ navParts (targetPath v.current_dir path) →
      change_directory v path = (v, false)) ∧
    (∀ l1 l2, navParts (targetPath v.current_dir path) = l1 ++ ".." :: l2 →
      (change_directory v path).2 = true →
      ∃ es o c, walk v.root l1 = some (.directory es o) ∧ lookupE es ".." = some c ∧
        getNode v.root (targetPath v.current_dir path) = walk c l2) := by
  constructor
  · intro hnd hmem
    have hg : getNode v.root (targetPath v.current_dir path) = none :=
      walk_dotdot v.root _ hnd hmem
    unfold change_directory
    rw [if_neg hne, hg]
  · intro l1 l2 hsplit hsucc
    cases hg : getNode v.root (targetPath v.current_dir path) with
    | none =>
      unfold change_directory at hsucc
      rw [if_neg hne, hg] at hsucc
      simp at hsucc
    | some n =>
      cases n with
      | file c o =>
        unfold change_directory at hsucc
        rw [if_neg hne, hg] at hsucc
        simp at hsucc
      | directory es2 o2 =>
        have hw : walk v.root (l1 ++ ".." :: l2) = some (.directory es2 o2) := by
          rw [← hsplit]
          exact hg
        rw [walk_append] at hw
        cases hw1 : walk v.root l1 with
        | none => rw [hw1] at hw; simp at hw
        | some m =>
          rw [hw1] at hw
          simp only [Option.some_bind] at hw
          cases m with
          | file c o => simp at hw
          | directory es o =>
            cases hl : lookupE es ".." with
            | none => rw [walk_dir_none hl] at hw; simp at hw
            | some c =>
              rw [walk_dir_some hl] at hw
              exact ⟨es, o, c, rfl, hl, hw.symm⟩

/-- Witness for C10: `cd home/..` from the root of the default VFS fails
because `".."` is looked up literally. -/
theorem dotdot_literal_spec_witness :
    change_directory defaultVFS "home/.." = (defaultVFS, false) :=
  (dotdot_literal_spec defaultVFS "home/.." (by decide)).1 (by decide) (by decide)

/-!  ## C1: history and log bookkeeping of `execute_command` (corrected)

The Python `try` block appends to `self.command_history` *after*
`parse_command` has succeeded; when `shlex` raises on unterminated quotes
the `except` branch logs the failure but the history append never runs.
So the log is written exactly once for every nonempty line, while the
history records only the lines that tokenized successfully. -/

theorem execute_command_log_append (s : ShellState) (cmd_str : String) (hne : cmd_str ≠ "") :
    (execute_command s cmd_str).1.log
      = s.log ++ [(cmd_str, (execute_command s cmd_str).2.1,
          if (execute_command s cmd_str).2.1 then "" else (execute_command s cmd_str).2.2)] := by
  cases hp : parse_command cmd_str with
  | error e => simp [execute_command, hne, hp]
  | ok t =>
    obtain ⟨cmd, args⟩ := t
    simp [execute_command, hne, hp]

theorem execute_command_history_ok (s : ShellState) (cmd_str : String) (hne : cmd_str ≠ "")
    (t : String × List String) (hp : parse_command cmd_str = .ok t) :
    (execute_command s cmd_str).1.command_history = s.command_history ++ [cmd_str] := by
  obtain ⟨cmd, args⟩ := t
  simp [execute_command, hne, hp]

theorem execute_command_history_error (s : ShellState) (cmd_str : String) (hne : cmd_str ≠ "")
    (e : String) (hp : parse_command cmd_str = .error e) :
    (execute_command s cmd_str).1.command_history = s.command_history ∧
    (execute_command s cmd_str).2.1 = false ∧
    (execute_command s cmd_str).2.2 = "Ошибка: " ++ e := by
  refine ⟨?_, ?_, ?_⟩ <;> simp [execute_command, hne, hp]

theorem runCommands_history (s : ShellState) (cmds : List String)
    (h : ∀ c ∈ cmds, c ≠ "" ∧ ∃ t, parse_command c = .ok t) :
    (runCommands s cmds).command_history = s.command_history ++ cmds := by
  induction cmds generalizing s with
  | nil => simp [runCommands]
  | cons c cs ih =>
    obtain ⟨hne, t, hp⟩ := h c (List.mem_cons_self c cs)
    have hcs : ∀ x ∈ cs, x ≠ "" ∧ ∃ t, parse_command x = .ok t :=
      fun x hx => h x (List.mem_cons_of_mem c hx)
    show (runCommands (execute_command s c).1 cs).command_history = _
    rw [ih (execute_command s c).1 hcs, execute_command_history_ok s c hne t hp]
    simp

/-- Counterexample to C1 as stated: the unterminated-quote line `ls "foo`
is logged exactly once with `success=false`, but it is *not* appended to
the in-memory command history (the append sits after `parse_command`
inside the `try` block). -/
theorem execute_command_logging_counterexample :
    (execute_command initShell "ls \"foo").1.command_history = [] ∧
    (execute_command initShell "ls \"foo").1.log
      = [("ls \"foo", false, "Ошибка: Ошибка синтаксиса: незакрытые кавычки")] ∧
    (execute_command initShell "ls \"foo").2.1 = false :=
  ⟨rfl, rfl, rfl⟩

/-- C1 amended: for every nonempty submitted line the logging collaborator
is invoked exactly once with the raw text, the success flag and the error
text (empty on success); the line is appended verbatim to the in-memory
history exactly when tokenization succeeds — a line whose parse fails
(unterminated quotes) is logged once with `success=false` and the
syntax-error text but not recorded in the history; hence after `N`
executed commands that tokenized successfully (failed dispatches
included), `history` holds exactly those `N` lines in submission order. -/
theorem execute_command_logging (s : ShellState) (cmd_str : String) :
    (cmd_str ≠ "" →
      (execute_command s cmd_str).1.log
        = s.log ++ [(cmd_str, (execute_command s cmd_str).2.1,
            if (execute_command s cmd_str).2.1 then ""
            else (execute_command s cmd_str).2.2)] ∧
      (∀ t, parse_command cmd_str = .ok t →
        (execute_command s cmd_str).1.command_history = s.command_history ++ [cmd_str]) ∧
      (∀ e, parse_command cmd_str = .error e →
        (execute_command s cmd_str).1.command_history = s.command_history ∧
        (execute_command s cmd_str).2.1 = false ∧
        (execute_command s cmd_str).2.2 = "Ошибка: " ++ e)) ∧
    (∀ cmds : List String, (∀ c ∈ cmds, c ≠ "" ∧ ∃ t, parse_command c = .ok t) →
      (runCommands s cmds).command_history = s.command_history ++ cmds) := by
  refine ⟨fun hne => ⟨?_, ?_, ?_⟩, ?_⟩
  · exact execute_command_log_append s cmd_str hne
  · intro t hp
    exact execute_command_history_ok s cmd_str hne t hp
  · intro e hp
    exact execute_command_history_error s cmd_str hne e hp
  · intro cmds h
    exact runCommands_history s cmds h

/-- Witness for the amended C1: a successful `ls` is logged and recorded,
and a two-command session records both lines in order. -/
theorem execute_command_logging_witness :
    (execute_command initShell "ls").1.log
      = [] ++ [("ls", (execute_command initShell "ls").2.1,
          if (execute_command initShell "ls").2.1 then ""
          else (execute_command initShell "ls").2.2)] ∧
    (execute_command initShell "ls").1.command_history = [] ++ ["ls"] ∧
    (runCommands initShell ["ls", "help"]).command_history = [] ++ ["ls", "help"] := by
  have h := execute_command_logging initShell "ls"
  refine ⟨(h.1 (by decide)).1, (h.1 (by decide)).2.1 ("ls", []) rfl, ?_⟩
  apply (execute_command_logging initShell "ls").2 ["ls", "help"]
  intro c hc
  rcases List.mem_cons.mp hc with h1 | h1
  · subst h1
    exact ⟨by decide, ("ls", []), rfl⟩
  · rcases List.mem_cons.mp h1 with h2 | h2
    · subst h2
      exact ⟨by decide, ("help", []), rfl⟩
    · simp at h2

/-!  ## C7: the startup-script runner -/

theorem runScriptAux_nil (s : ShellState) (n : Nat) : runScriptAux s [] n = (s, true, none) := rfl

theorem runScriptAux_cons (s : ShellState) (line : String) (rest : List String) (n : Nat) :
    runScriptAux s (line :: rest) n
      = if effLine line then
          (if (execute_command s (pyStrip line)).2.1 then
            runScriptAux (execute_command s (pyStrip line)).1 rest (n + 1)
          else ((execute_command s (pyStrip line)).1, false, some n))
        else runScriptAux s rest (n + 1) := rfl

theorem runScriptAux_true_none (lines : List String) :
    ∀ (s : ShellState) (n : Nat),
      (runScriptAux s lines n).2.1 = true → (runScriptAux s lines n).2.2 = none := by
  induction lines with
  | nil => intro s n _; rfl
  | cons line rest ih =>
    intro s n h
    rw [runScriptAux_cons] at h ⊢
    by_cases he : effLine line
    · rw [if_pos he] at h ⊢
      by_cases hx : (execute_command s (pyStrip line)).2.1
      · rw [if_pos hx] at h ⊢
        exact ih _ _ h
      · rw [if_neg hx] at h
        simp at h
    · rw [if_neg he] at h ⊢
      exact ih _ _ h

theorem runScriptAux_fail (lines : List String) :
    ∀ (s : ShellState) (n : Nat) (s' : ShellState) (k : Nat),
      runScriptAux s lines n = (s', false, some k) →
      n ≤ k ∧ k - n < lines.length ∧
      (∃ s0 l, runScriptAux s (lines.take (k - n)) n = (s0, true, none) ∧
        lines[k - n]? = some l ∧ effLine l = true ∧
        (execute_command s0 (pyStrip l)).1 = s' ∧
        (execute_command s0 (pyStrip l)).2.1 = false) ∧
      (∀ rest, runScriptAux s (lines.take (k - n + 1) ++ rest) n = (s', false, some k)) := by
  induction lines with
  | nil =>
    intro s n s' k h
    rw [runScriptAux_nil] at h
    simp at h
  | cons line rest ih =>
    intro s n s' k h
    rw [runScriptAux_cons] at h
    by_cases he : effLine line
    · rw [if_pos he] at h
      by_cases hx : (execute_command s (pyStrip line)).2.1
      · rw [if_pos hx] at h
        obtain ⟨h1, h2, ⟨s0, l, h3, h4, h5, h6, h7⟩, h8⟩ :=
          ih (execute_command s (pyStrip line)).1 (n + 1) s' k h
        have hkn : k - n = (k - (n + 1)) + 1 := by omega
        refine ⟨by omega, by simp; omega, ⟨s0, l, ?_, ?_, h5, h6, h7⟩, ?_⟩
        · rw [hkn, List.take_succ_cons, runScriptAux_cons, if_pos he, if_pos hx]
          exact h3
        · rw [hkn]
          simpa using h4
        · intro more
          rw [hkn, List.take_succ_cons, List.cons_append, runScriptAux_cons, if_pos he,
            if_pos hx]
          exact h8 more
      · rw [if_neg hx] at h
        have hs' : (execute_command s (pyStrip line)).1 = s' := congrArg Prod.fst h
        have hk : n = k := by
          have := congrArg (fun p => p.2.2) h
          simpa using this
        subst hk
        simp only [Nat.sub_self, List.take_zero, List.take_succ_cons]
        refine ⟨Nat.le_refl n, by simp, ⟨s, line, runScriptAux_nil s n, by simp, he, hs', ?_⟩, ?_⟩
        · simpa using hx
        · intro more
          rw [List.cons_append, runScriptAux_cons, if_pos he, if_neg hx, hs']
    · rw [if_neg he] at h
      obtain ⟨h1, h2, ⟨s0, l, h3, h4, h5, h6, h7⟩, h8⟩ := ih s (n + 1) s' k h
      have hkn : k - n = (k - (n + 1)) + 1 := by omega
      refine ⟨by omega, by simp; omega, ⟨s0, l, ?_, ?_, h5, h6, h7⟩, ?_⟩
      · rw [hkn, List.take_succ_cons, runScriptAux_cons, if_neg he]
        exact h3
      · rw [hkn]
        simpa using h4
      · intro more
        rw [hkn, List.take_succ_cons, List.cons_append, runScriptAux_cons, if_neg he]
        exact h8 more

/-- C7: the script runner executes the non-blank, non-comment
(`#`-prefixed after stripping) lines in order; if every executed line
succeeds it reports overall success (and no halt line); on the first
failing line it stops — its report is the 1-based line number `k`, counted
over all lines including skipped ones, the prefix before line `k` runs to
completion successfully, line `k` itself is effective and its execution
fails yielding the final state, and the lines after `k` are irrelevant:
appending anything after the first `k` lines changes nothing. -/
theorem startup_script_spec (s : ShellState) (lines : List String) :
    ((execute_startup_script s lines).2.1 = true →
      (execute_startup_script s lines).2.2 = none) ∧
    (∀ s' k, execute_startup_script s lines = (s', false, some k) →
      1 ≤ k ∧ k ≤ lines.length ∧
      (∃ s0 l, runScriptAux s (lines.take (k - 1)) 1 = (s0, true, none) ∧
        lines[k - 1]? = some l ∧ effLine l = true ∧
        (execute_command s0 (pyStrip l)).1 = s' ∧
        (execute_command s0 (pyStrip l)).2.1 = false) ∧
      (∀ rest, execute_startup_script s (lines.take k ++ rest) = (s', false, some k))) := by
  constructor
  · exact runScriptAux_true_none lines s 1
  · intro s' k h
    obtain ⟨h1, h2, h3, h4⟩ := runScriptAux_fail lines s 1 s' k h
    refine ⟨h1, by omega, h3, ?_⟩
    intro rest
    have hk : k - 1 + 1 = k := by omega
    have := h4 rest
    rw [hk] at this
    exact this

/-- Witness for C7, the spec's own example: `["ls", "cd /nowhere", "ls"]`
halts at line 2 and the third `ls` never executes. -/
theorem startup_script_spec_witness :
    1 ≤ 2 ∧ 2 ≤ (["ls", "cd /nowhere", "ls"] : List String).length ∧
    (∃ s0 l, runScriptAux initShell ((["ls", "cd /nowhere", "ls"] : List String).take (2 - 1)) 1
        = (s0, true, none) ∧
      (["ls", "cd /nowhere", "ls"] : List String)[2 - 1]? = some l ∧ effLine l = true ∧
      (execute_command s0 (pyStrip l)).1
        = (execute_startup_script initShell ["ls", "cd /nowhere", "ls"]).1 ∧
      (execute_command s0 (pyStrip l)).2.1 = false) ∧
    (∀ rest, execute_startup_script initShell
        ((["ls", "cd /nowhere", "ls"] : List String).take 2 ++ rest)
      = ((execute_startup_script initShell ["ls", "cd /nowhere", "ls"]).1, false, some 2)) :=
  (startup_script_spec initShell ["ls", "cd /nowhere", "ls"]).2
    (execute_startup_script initShell ["ls", "cd /nowhere", "ls"]).1 2 rfl

/-!  ## C2: fingerprint determinism

"Equal as trees, regardless of in-memory insertion order" is the
congruence closure of reordering adjacent directory entries: files must
agree on content and owner, directories on owner and on their entry lists
up to permutation, with equivalent values — `NodeEquiv`/`EntriesEquiv`
below (the standard `nil`/`cons`/`swap`/`trans` presentation of
permutations, with equivalence at the values). -/

mutual

inductive NodeEquiv : Node → Node → Prop where
  | file (c : String) (o : Option String) : NodeEquiv (.file c o) (.file c o)
  | directory {es1 es2 : Entries} (o : Option String) (h : EntriesEquiv es1 es2) :
      NodeEquiv (.directory es1 o) (.directory es2 o)

inductive EntriesEquiv : Entries → Entries → Prop where
  | nil : EntriesEquiv .nil .nil
  | cons {v1 v2 : Node} {r1 r2 : Entries} (k : String) (hv : NodeEquiv v1 v2)
      (hr : EntriesEquiv r1 r2) : EntriesEquiv (.cons k v1 r1) (.cons k v2 r2)
  | swap {v1 v2 : Node} (k1 k2 : String) (r : Entries) :
      EntriesEquiv (.cons k1 v1 (.cons k2 v2 r)) (.cons k2 v2 (.cons k1 v1 r))
  | trans {a b c : Entries} (h1 : EntriesEquiv a b) (h2 : EntriesEquiv b c) : EntriesEquiv a c

end

theorem memE_cons (k : String) (v : Node) (r : Entries) (name : String) :
    memE (.cons k v r) name = if k = name then true else memE r name := by
  unfold memE
  by_cases h : k = name <;> simp [h]

theorem equiv_keys_perm {e1 e2 : Entries} (h : EntriesEquiv e1 e2) :
    (keysE e1).Perm (keysE e2) :=
  @EntriesEquiv.rec (fun _ _ _ => True) (fun a b _ => (keysE a).Perm (keysE b))
    (fun _ _ => trivial)
    (fun _ _ _ => trivial)
    (List.Perm.refl [])
    (fun k _ _ _ ih => List.Perm.cons k ih)
    (fun k1 k2 r => List.Perm.swap k2 k1 (keysE r))
    (fun _ _ ih1 ih2 => ih1.trans ih2)
    e1 e2 h

theorem memE_eq_of_perm {r1 r2 : Entries} (hp : (keysE r1).Perm (keysE r2)) (k : String) :
    memE r1 k = memE r2 k := by
  cases hm1 : memE r1 k with
  | true =>
    have : k ∈ keysE r2 := hp.mem_iff.mp ((mem_keysE r1 k).mpr hm1)
    rw [(mem_keysE r2 k).mp this]
  | false =>
    cases hm2 : memE r2 k with
    | true =>
      have : k ∈ keysE r1 := hp.mem_iff.mpr ((mem_keysE r2 k).mpr hm2)
      rw [(mem_keysE r1 k).mp this] at hm1
      exact hm1.symm
    | false => rfl

theorem entriesEquiv_wf {e1 e2 : Entries} (he : EntriesEquiv e1 e2)
    (h : entriesWF e1 = true) : entriesWF e2 = true := by
  refine @EntriesEquiv.rec
    (fun a b _ => nodeWF a = true → nodeWF b = true)
    (fun a b _ => entriesWF a = true → entriesWF b = true)
    ?_ ?_ ?_ ?_ ?_ ?_ e1 e2 he h
  · intro c o hw
    exact hw
  · intro es1 es2 o hee ih hw
    exact ih hw
  · intro hw
    exact hw
  · intro v1 v2 r1 r2 k hv hr ihP ihQ hw
    simp only [entriesWF, Bool.and_eq_true] at hw ⊢
    obtain ⟨⟨⟨hk, hm⟩, hv1⟩, hr1⟩ := hw
    refine ⟨⟨⟨hk, ?_⟩, ihP hv1⟩, ihQ hr1⟩
    rw [Bool.not_eq_true'] at hm ⊢
    rw [← memE_eq_of_perm (equiv_keys_perm hr) k]
    exact hm
  · intro v1 v2 k1 k2 r hw
    simp only [entriesWF, Bool.and_eq_true, Bool.not_eq_true'] at hw ⊢
    obtain ⟨⟨⟨hk1, hm1⟩, hv1⟩, ⟨⟨hk2, hm2⟩, hv2⟩, hr⟩ := hw
    rw [memE_cons] at hm1
    by_cases h21 : k2 = k1
    · rw [if_pos h21] at hm1
      exact absurd hm1 (by simp)
    · rw [if_neg h21] at hm1
      refine ⟨⟨⟨hk2, ?_⟩, hv2⟩, ⟨⟨hk1, hm1⟩, hv1⟩, hr⟩
      rw [memE_cons, if_neg (fun hc => h21 hc.symm)]
      exact hm2
  · intro a b c h1 h2 ih1 ih2 hw
    exact ih2 (ih1 hw)

theorem insertEntry_nil (k : String) (v : Node) : insertEntry k v .nil = .cons k v .nil := rfl

theorem insertEntry_cons (k : String) (v : Node) (k2 : String) (v2 : Node) (r : Entries) :
    insertEntry k v (.cons k2 v2 r)
      = if k ≤ k2 then .cons k v (.cons k2 v2 r) else .cons k2 v2 (insertEntry k v r) := rfl

theorem insertEntry_comm (k1 k2 : String) (v1 v2 : Node) (hne : k1 ≠ k2) (s : Entries) :
    insertEntry k1 v1 (insertEntry k2 v2 s) = insertEntry k2 v2 (insertEntry k1 v1 s) := by
  induction s with
  | nil =>
    by_cases h12 : k1 ≤ k2
    · have h21 : ¬ k2 ≤ k1 := fun hc => hne (le_antisymm h12 hc)
      simp [insertEntry_nil, insertEntry_cons, h12, h21]
    · have h21 : k2 ≤ k1 := le_of_not_le h12
      simp [insertEntry_nil, insertEntry_cons, h12, h21]
  | cons q w r ih =>
    by_cases h12 : k1 ≤ k2
    · have h21 : ¬ k2 ≤ k1 := fun hc => hne (le_antisymm h12 hc)
      by_cases hk1q : k1 ≤ q
      · by_cases hk2q : k2 ≤ q
        · simp [insertEntry_cons, h12, h21, hk1q, hk2q]
        · simp [insertEntry_cons, h12, h21, hk1q, hk2q]
      · have hk2q : ¬ k2 ≤ q := fun hc => hk1q (le_trans h12 hc)
        simp [insertEntry_cons, h12, h21, hk1q, hk2q, ih]
    · have h21 : k2 ≤ k1 := le_of_not_le h12
      by_cases hk2q : k2 ≤ q
      · by_cases hk1q : k1 ≤ q
        · simp [insertEntry_cons, h12, h21, hk1q, hk2q]
        · simp [insertEntry_cons, h12, h21, hk1q, hk2q]
      · have hk1q : ¬ k1 ≤ q := fun hc => hk2q (le_trans h21 hc)
        simp [insertEntry_cons, h12, h21, hk1q, hk2q, ih]

theorem nodeEquiv_canon {n1 n2 : Node} (he : NodeEquiv n1 n2) (h : nodeWF n1 = true) :
    canonNode n1 = canonNode n2 := by
  refine @NodeEquiv.rec
    (fun a b _ => nodeWF a = true → canonNode a = canonNode b)
    (fun a b _ => entriesWF a = true →
      sortEntries (canonEntries a) = sortEntries (canonEntries b))
    ?_ ?_ ?_ ?_ ?_ ?_ n1 n2 he h
  · intro c o _
    rfl
  · intro es1 es2 o hee ih hw
    show Node.directory (sortEntries (canonEntries es1)) o
      = Node.directory (sortEntries (canonEntries es2)) o
    rw [ih hw]
  · intro _
    rfl
  · intro v1 v2 r1 r2 k hv hr ihP ihQ hw
    simp only [entriesWF, Bool.and_eq_true] at hw
    obtain ⟨⟨⟨hk, hm⟩, hv1⟩, hr1⟩ := hw
    show insertEntry k (canonNode v1) (sortEntries (canonEntries r1))
      = insertEntry k (canonNode v2) (sortEntries (canonEntries r2))
    rw [ihP hv1, ihQ hr1]
  · intro v1 v2 k1 k2 r hw
    simp only [entriesWF, Bool.and_eq_true, Bool.not_eq_true'] at hw
    obtain ⟨⟨⟨hk1, hm1⟩, hv1⟩, _⟩ := hw
    rw [memE_cons] at hm1
    have hne : k1 ≠ k2 := by
      intro hc
      rw [if_pos hc.symm] at hm1
      exact Bool.noConfusion hm1
    exact insertEntry_comm k1 k2 _ _ hne (sortEntries (canonEntries r))
  · intro a b c h1 h2 ih1 ih2 hw
    exact (ih1 hw).trans (ih2 (entriesEquiv_wf h1 hw))

/-- C2: two VFS trees that are equal as trees — same structure, names,
file contents and owner attributes, independently of the order in which
each directory's entries sit in memory (`NodeEquiv`) — produce an
identical `get_vfs_info` digest; the digest is SHA-256 over the canonical
key-sorted JSON serialization of the whole tree. -/
theorem fingerprint_deterministic (v1 v2 : VFSState) (hwf : nodeWF v1.root = true)
    (heq : NodeEquiv v1.root v2.root) :
    (get_vfs_info v1).2 = (get_vfs_info v2).2 ∧
    (get_vfs_info v1).2 = sha256hex (strBytes (vfsSerial v1.root)) := by
  constructor
  · show sha256hex (strBytes (vfsSerial v1.root)) = sha256hex (strBytes (vfsSerial v2.root))
    unfold vfsSerial
    rw [nodeEquiv_canon heq hwf]
  · rfl

/-- The two-entry directory built in one insertion order … -/
def c2tree1 : Node :=
  .directory (.cons "b" (.file "y" none) (.cons "a" (.file "x" none) .nil)) none

/-- … and the same logical directory built in the other order. -/
def c2tree2 : Node :=
  .directory (.cons "a" (.file "x" none) (.cons "b" (.file "y" none) .nil)) none

/-- Witness for C2: the two insertion orders of the same two-file
directory give one digest. -/
theorem fingerprint_deterministic_witness :
    (get_vfs_info { root := c2tree1, current_dir := "/", physical_path := none }).2
      = (get_vfs_info { root := c2tree2, current_dir := "/", physical_path := none }).2 ∧
    (get_vfs_info { root := c2tree1, current_dir := "/", physical_path := none }).2
      = sha256hex (strBytes (vfsSerial c2tree1)) :=
  fingerprint_deterministic
    { root := c2tree1, current_dir := "/", physical_path := none }
    { root := c2tree2, current_dir := "/", physical_path := none }
    (by decide) (.directory none (.swap "b" "a" .nil))

end VfsShell
